import Mathlib

/-!
Verification of the reasoning-and-query subsystem of the prompt2graph
repository: a shallow embedding, in Lean 4, of

  * `relation_inference.py` (rule-based relation composition),
  * `cache_manager.py` (TTL- and capacity-bounded cache),
  * `advanced_inference.py` (temporal / probabilistic / multi-hop inference),
  * `query_engine.py` (natural-language query classification and execution),

together with theorems settling the frozen claims C1-C10 about these
modules.  Python floats are modelled as exact rationals (`ℚ`), timestamps
as integers (`ℤ`, seconds), byte sizes as `ℕ`, dictionaries as
insertion-ordered association lists, and Python exceptions as `Except` /
`Option` results.  Each definition is translated from the corresponding
Python function; comments record the file and the few places where a
behaviour (wall-clock readings, Python `set` iteration order, the textual
`str()` rendering used by one substring filter) cannot influence the
theorems proved here.
-/

/-! ### Basic string / list utilities

Python string operations (`in`, `split`, `strip`, `lower`) used by
`query_engine.py`, modelled on `List Char`.
-/

/-- Python `list(set(xs))` keeping the first occurrence of each element.
Python's `set` iteration order is unspecified; every theorem below depends
only on the length and membership of the result, which agree with the
Python value. -/
def dedupList {α : Type} [DecidableEq α] : List α → List α
  | [] => []
  | x :: xs => if x ∈ xs then dedupList xs else x :: dedupList xs

/-- Insertion-ordered variant of `dedupList` (first occurrences kept in
order of first appearance), used where the Python code accumulates a
`set` incrementally. -/
def addUnique {α : Type} [DecidableEq α] (l : List α) (x : α) : List α :=
  if x ∈ l then l else l ++ [x]

/-- Apply a fallible function to every element, failing as soon as one
application fails (`mapM` over `Option`, written structurally). -/
def optMapList {α β : Type} (f : α → Option β) : List α → Option (List β)
  | [] => some []
  | x :: xs =>
    match f x with
    | none => none
    | some y =>
      match optMapList f xs with
      | none => none
      | some ys => some (y :: ys)

/-! ### Data model (`graph_models.py`)

Property dictionaries (`Dict[str, Any]`) are modelled as association
lists over a small universe of values actually stored by the code. -/

/-- A Python value stored in a `properties` dictionary. -/
inductive PVal : Type
  | pb (b : Bool)
  | ps (s : String)
  | pint (n : ℤ)
  | pq (q : ℚ)
  | plist (l : List String)
deriving DecidableEq, Repr

/-- A `properties` dictionary. -/
abbrev Props : Type := List (String × PVal)

/-- `graph_models.Entity`. -/
structure Entity : Type where
  id : String
  name : String
  type : String
  properties : Props
deriving DecidableEq, Repr

/-- `graph_models.Relation`. -/
structure Relation : Type where
  source : Entity
  target : Entity
  relation_type : String
  confidence : ℚ
  properties : Props
deriving DecidableEq, Repr

/-- `graph_models.InferenceRule`; `created_at` / `updated_at` are plain
timestamps (seconds), never read by the inference code. -/
structure InferenceRule : Type where
  id : String
  name : String
  description : String
  premise_relations : List String
  conclusion_relation : String
  confidence_factor : ℚ
  created_at : ℤ
  updated_at : ℤ
  is_active : Bool := true
deriving DecidableEq, Repr

/-! ### Directed graphs (`networkx.DiGraph`)

A `DiGraph` with edge payload `ε` is a list of `(source, target, data)`
triples; `add_edge` on an existing `(source, target)` pair replaces its
data in place, so the list order records insertion order and each pair
occurs at most once when built through `addEdgeE`. -/

/-- Edge list of a `networkx.DiGraph` with edge-data type `ε`. -/
abbrev EdgeList (ε : Type) : Type := List (String × String × ε)

/-- `G.add_edge u v data`: replace the data of an existing `(u, v)` edge,
otherwise append a new edge. -/
def addEdgeE {ε : Type} : EdgeList ε → String → String → ε → EdgeList ε
  | [], u, v, d => [(u, v, d)]
  | e :: es, u, v, d =>
    if e.1 = u ∧ e.2.1 = v then (u, v, d) :: es else e :: addEdgeE es u v d

/-- `G.get_edge_data u v`. -/
def edgeData? {ε : Type} (g : EdgeList ε) (u v : String) : Option ε :=
  (g.find? (fun e => e.1 = u ∧ e.2.1 = v)).map (fun e => e.2.2)

/-- Successors of `u` (`G.successors` / adjacency order = insertion order). -/
def adjOf {ε : Type} (g : EdgeList ε) (u : String) : List String :=
  (g.filter (fun e => e.1 = u)).map (fun e => e.2.1)

/-- Nodes of the graph in order of first appearance (`G.nodes`). -/
def nodesOf {ε : Type} (g : EdgeList ε) : List String :=
  g.foldl (fun ns e => addUnique (addUnique ns e.1) e.2.1) []

/-- Out-edges of `u` with data (`G.out_edges(u, data=True)`). -/
def outEdges {ε : Type} (g : EdgeList ε) (u : String) : List (String × ε) :=
  (g.filter (fun e => e.1 = u)).map (fun e => (e.2.1, e.2.2))

/-- DFS kernel of `networkx.all_simple_paths`: `fuel` is the number of
edges still allowed, `vis` the path built so far (first node included);
a path is emitted exactly when the next edge reaches `t`. -/
def spAux {ε : Type} (g : EdgeList ε) (t : String) :
    ℕ → String → List String → List (List String)
  | 0, _, _ => []
  | fuel + 1, u, vis =>
    (adjOf g u).flatMap (fun v =>
      if v = t then [vis ++ [t]]
      else if v ∈ vis then []
      else spAux g t fuel v (vis ++ [v]))

/-- `networkx.all_simple_paths(G, s, t, cutoff)`: all node-simple directed
paths from `s` to `t` with at most `cutoff` edges.  networkx yields no
path when `s = t`, and raises `NodeNotFound` when `s` or `t` is absent; in
that last case the enclosing Python calls produce no results, modelled by
the empty list. -/
def allSimplePaths {ε : Type} (g : EdgeList ε) (s t : String) (cutoff : ℕ) :
    List (List String) :=
  if s = t ∨ s ∉ nodesOf g ∨ t ∉ nodesOf g then []
  else spAux g t cutoff s [s]

/-! ### `relation_inference.py` — `RelationInferenceEngine` -/

/-- Edge data stored by `RelationInferenceEngine.infer_relations` when it
builds its working graph (`relation_type`, `confidence`, `properties`). -/
structure REdgeData : Type where
  relation_type : String
  confidence : ℚ
  properties : Props
deriving DecidableEq, Repr

/-- The graph built at the start of `infer_relations`: one `add_edge` per
input relation, keyed by the endpoint entity ids. -/
def buildRelGraph (relations : List Relation) : EdgeList REdgeData :=
  relations.foldl
    (fun g r => addEdgeE g r.source.id r.target.id
      ⟨r.relation_type, r.confidence, r.properties⟩) []

/-- The sequence of edge types along a node path (`None` if an edge is
missing, which cannot happen for paths enumerated from the same graph). -/
def pathRelTypes (g : EdgeList REdgeData) (p : List String) :
    Option (List String) :=
  optMapList (fun uv => (edgeData? g uv.1 uv.2).map (fun d => d.relation_type))
    (p.zip p.tail)

/-- `RelationInferenceEngine._find_matching_paths`: for every ordered pair
of distinct nodes, every simple path with exactly `relation_types.length`
edges whose edge types equal `relation_types`. -/
def findMatchingPaths (g : EdgeList REdgeData) (relation_types : List String) :
    List (List String) :=
  (nodesOf g).flatMap (fun s =>
    (nodesOf g).flatMap (fun t =>
      if s ≠ t then
        (allSimplePaths g s t relation_types.length).filter (fun p =>
          p.length - 1 = relation_types.length &&
            pathRelTypes g p == some relation_types)
      else []))

/-- The entity-resolution loop of `RelationInferenceEngine._apply_rule`:
scan the input relations, remembering the latest relation whose source
(resp. target) id matches, stopping as soon as both are known. -/
def findEnts : List Relation → Option Entity → Option Entity → String → String →
    Option Entity × Option Entity
  | [], se, te, _, _ => (se, te)
  | r :: rs, se, te, sid, tid =>
    let se' := if r.source.id = sid then some r.source else se
    let te' := if r.target.id = tid then some r.target else te
    if se'.isSome ∧ te'.isSome then (se', te') else findEnts rs se' te' sid tid

/-- The relations looked up for the hops of a path
(`next(r for r in existing_relations if ...)` for each consecutive pair;
`none` if some hop has no matching relation, where Python would raise
`StopIteration` — unreachable for paths of the graph built from
`existing_relations`). -/
def hopRelations (relations : List Relation) (p : List String) :
    Option (List Relation) :=
  optMapList (fun uv =>
    relations.find? (fun r => r.source.id = uv.1 ∧ r.target.id = uv.2))
    (p.zip p.tail)

/-- `RelationInferenceEngine._apply_rule`. -/
def applyRule (rule : InferenceRule) (p : List String)
    (existing_relations : List Relation) : Option Relation :=
  match p.head?, p.getLast? with
  | some source_id, some target_id =>
    match findEnts existing_relations none none source_id target_id with
    | (some source_entity, some target_entity) =>
      match hopRelations existing_relations p with
      | some hops =>
        some
          { source := source_entity
            target := target_entity
            relation_type := rule.conclusion_relation
            confidence := (hops.map (fun r => r.confidence)).prod *
              rule.confidence_factor
            properties := [("inferred", PVal.pb true), ("rule_id", PVal.ps rule.id)] }
      | none => none
    | _ => none
  | _, _ => none

/-- `RelationInferenceEngine.infer_relations` for a given rule list:
build the graph, and for every rule with exactly two premises apply it to
every matching path.  The Python engine never consults `is_active`. -/
def inferRelations (rules : List InferenceRule) (relations : List Relation) :
    List Relation :=
  let graph := buildRelGraph relations
  rules.flatMap (fun rule =>
    if rule.premise_relations.length = 2 then
      (findMatchingPaths graph rule.premise_relations).filterMap
        (fun p => applyRule rule p relations)
    else [])

/-- The default rules installed by
`RelationInferenceEngine.initialize_default_rules`; `now` stands for the
`datetime.now()` readings taken at construction time. -/
def defaultRules (now : ℤ) : List InferenceRule :=
  [ { id := "transitive-is-a", name := "IS-A传递性",
      description := "如果A是B，B是C，则A是C",
      premise_relations := ["is_a", "is_a"], conclusion_relation := "is_a",
      confidence_factor := 0.9, created_at := now, updated_at := now },
    { id := "transitive-part-of", name := "PART-OF传递性",
      description := "如果A是B的一部分，B是C的一部分，则A是C的一部分",
      premise_relations := ["part_of", "part_of"], conclusion_relation := "part_of",
      confidence_factor := 0.9, created_at := now, updated_at := now },
    { id := "cause-effect-chain", name := "因果链",
      description := "如果A导致B，B导致C，则A导致C",
      premise_relations := ["causes", "causes"], conclusion_relation := "causes",
      confidence_factor := 0.8, created_at := now, updated_at := now },
    { id := "dependency-chain", name := "依赖链",
      description := "如果A依赖B，B依赖C，则A依赖C",
      premise_relations := ["depends_on", "depends_on"],
      conclusion_relation := "depends_on",
      confidence_factor := 0.8, created_at := now, updated_at := now },
    { id := "location-containment", name := "位置包含",
      description := "如果A位于B，B包含C，则A位于C",
      premise_relations := ["located_in", "contains"],
      conclusion_relation := "located_in",
      confidence_factor := 0.85, created_at := now, updated_at := now },
    { id := "temporal-sequence", name := "时序关系",
      description := "如果A发生在B之前，B发生在C之前，则A发生在C之前",
      premise_relations := ["happens_before", "happens_before"],
      conclusion_relation := "happens_before",
      confidence_factor := 0.9, created_at := now, updated_at := now } ]

/-! ### `cache_manager.py` — `CacheManager`

Timestamps are integers (seconds); ISO-8601 strings compare the same way
their underlying instants do.  The pickled payload is an abstract type
`α`, and the on-disk byte size observed through `os.path.getsize` is
passed to `set` explicitly.

`self.lock` is a *non-reentrant* `threading.Lock`, and it matters:
`set` runs its whole body holding the lock and, still holding it, calls
`self._cleanup()`, whose body starts with `with self.lock:` — so the
same thread blocks forever on the second acquisition and `set` never
returns (acquiring raises nothing, so the `except` clause cannot fire).
`PyRun.deadlock` marks such a call.  The pure `cleanup` below is the
body of `_cleanup` as it executes when entered with the lock free,
which happens only from `__init__`; `get` takes the lock once and calls
only `_remove_cache`, which does not re-acquire it, so `get` runs to
completion and is modelled as a pure function. -/

/-- `cache_manager.CacheMetadata`. -/
structure CacheMetadata : Type where
  key : String
  created_at : ℤ
  expires_at : ℤ
  size_bytes : ℕ
  data_type : String
  access_count : ℕ
  last_accessed : ℤ
deriving DecidableEq, Repr

/-- In-memory cache state: the metadata dictionary (insertion-ordered,
keys unique) and the cache files on disk. -/
structure CacheState (α : Type) : Type where
  metadata : List CacheMetadata
  store : List (String × α)

/-- The sort key used by `_cleanup`
(`key=lambda x: (x[1].access_count, x[1].last_accessed)`) as a strict
lexicographic "comes before" test. -/
def cmLt (a b : CacheMetadata) : Bool :=
  a.access_count < b.access_count ||
    (a.access_count == b.access_count && a.last_accessed < b.last_accessed)

/-- Insert `x` into an already sorted list: `x` goes in front of the
first element it is strictly below, hence after every earlier element
with an equal key — the placement Python's stable `sorted` gives a
later-arriving element. -/
def stableInsert {α : Type} (lt : α → α → Bool) (x : α) : List α → List α
  | [] => [x]
  | y :: ys => if lt x y then x :: y :: ys else y :: stableInsert lt x ys

/-- Python `sorted(l, key=...)`: stable ascending sort, modelled as
left-to-right insertion with `stableInsert`. -/
def stableSortPy {α : Type} (lt : α → α → Bool) (l : List α) : List α :=
  l.foldl (fun acc x => stableInsert lt x acc) []

/-- An entry is expired when `expires_at < now`
(`datetime.fromisoformat(meta.expires_at) < current_time`). -/
def cmExpired (now : ℤ) (m : CacheMetadata) : Bool :=
  m.expires_at < now

/-- Total `size_bytes` of a metadata list. -/
def sumSizes (l : List CacheMetadata) : ℤ :=
  (l.map (fun m => (m.size_bytes : ℤ))).sum

/-- The eviction loop of `_cleanup`:
`while total_size > max_size_bytes and sorted_items: pop(0); total -= size`.
Returns the entries popped.  `total` is a plain (possibly negative)
integer, exactly as in Python. -/
def evictLoop (maxSize : ℤ) : List CacheMetadata → ℤ → List CacheMetadata
  | [], _ => []
  | m :: rest, total =>
    if total > maxSize then m :: evictLoop maxSize rest (total - m.size_bytes)
    else []

/-- `CacheManager._cleanup`: collect expired keys, total the sizes of the
unexpired entries, and if over budget run the eviction loop over *all*
entries (expired ones included) sorted by `(access_count, last_accessed)`;
finally remove every collected key from metadata and disk. -/
def cleanup {α : Type} (now : ℤ) (maxSize : ℤ) (st : CacheState α) :
    CacheState α :=
  let expired := st.metadata.filter (fun m => cmExpired now m)
  let totalSize := sumSizes (st.metadata.filter (fun m => ¬ cmExpired now m))
  let evicted :=
    if totalSize > maxSize then
      evictLoop maxSize (stableSortPy cmLt st.metadata) totalSize
    else []
  let removedKeys := expired.map (fun m => m.key) ++ evicted.map (fun m => m.key)
  { metadata := st.metadata.filter (fun m => m.key ∉ removedKeys)
    store := st.store.filter (fun e => e.1 ∉ removedKeys) }

/-- Replace the metadata entry with the same key in place, else append
(Python `self.metadata[key] = ...` on an insertion-ordered dict). -/
def upsertMeta : List CacheMetadata → CacheMetadata → List CacheMetadata
  | [], m => [m]
  | x :: xs, m => if x.key = m.key then m :: xs else x :: upsertMeta xs m

/-- Replace the stored payload for a key, else append (writing the cache
file). -/
def upsertStore {α : Type} : List (String × α) → String → α → List (String × α)
  | [], k, d => [(k, d)]
  | x :: xs, k, d => if x.1 = k then (k, d) :: xs else x :: upsertStore xs k d

/-- The TTL chosen by `set`:
`timedelta(hours=ttl_hours) if ttl_hours else self.default_ttl`.
Python truthiness makes both `None` *and* `0` fall back to the default
TTL.  `defaultTtl` is in seconds. -/
def ttlSeconds (defaultTtl : ℤ) : Option ℤ → ℤ
  | some h => if h ≠ 0 then 3600 * h else defaultTtl
  | none => defaultTtl

/-- The state after `set` has written the file and the metadata entry but
before the final `_cleanup` call. -/
def setPending {α : Type} (now defaultTtl : ℤ) (key : String) (data : α)
    (sizeBytes : ℕ) (ttlHours : Option ℤ) (st : CacheState α) : CacheState α :=
  { metadata := upsertMeta st.metadata
      { key := key
        created_at := now
        expires_at := now + ttlSeconds defaultTtl ttlHours
        size_bytes := sizeBytes
        data_type := "general"
        access_count := 0
        last_accessed := now }
    store := upsertStore st.store key data }

/-- The outcome of running a `CacheManager` method in a single-threaded
run: either it returns a value, or it hangs forever re-acquiring the
non-reentrant `threading.Lock` it already holds. -/
inductive PyRun (α : Type) : Type
  | ok (a : α)
  | deadlock
deriving DecidableEq, Repr

/-- `CacheManager._cleanup` as invoked by a caller that does (`held`) or
does not already hold `self.lock`: `with self.lock:` on a non-reentrant
lock blocks forever when the same thread already holds it; entered with
the lock free, the body (`cleanup`) runs and returns. -/
def cleanupRun {α : Type} (held : Bool) (now maxSize : ℤ) (st : CacheState α) :
    PyRun (CacheState α) :=
  if held then PyRun.deadlock else PyRun.ok (cleanup now maxSize st)

/-- `CacheManager.set`: `with self.lock:` is acquired (free at entry of a
single-threaded run); the body writes the cache file and the metadata
entry and saves the metadata file (`setPending`), then calls
`self._cleanup()` with the lock still held.  `return True` is reached
only if that call returns — it never does, so every `set` call
deadlocks after the `setPending` writes have hit the disk. -/
def cacheSetRun {α : Type} (now maxSize defaultTtl : ℤ) (key : String) (data : α)
    (sizeBytes : ℕ) (ttlHours : Option ℤ) (st : CacheState α) :
    PyRun (Bool × CacheState α) :=
  match cleanupRun true now maxSize
      (setPending now defaultTtl key data sizeBytes ttlHours st) with
  | PyRun.deadlock => PyRun.deadlock
  | PyRun.ok st2 => PyRun.ok (true, st2)

/-- Remove one key from metadata and disk (`CacheManager._remove_cache`). -/
def removeCache {α : Type} (key : String) (st : CacheState α) : CacheState α :=
  { metadata := st.metadata.filter (fun m => m.key ≠ key)
    store := st.store.filter (fun e => e.1 ≠ key) }

/-- `CacheManager.get`: `default` is modelled as `none`; a hit returns
`some data` and bumps `access_count` / `last_accessed`. -/
def cacheGet {α : Type} (now : ℤ) (st : CacheState α) (key : String) :
    Option α × CacheState α :=
  match st.metadata.find? (fun m => m.key = key) with
  | none => (none, st)
  | some meta =>
    if cmExpired now meta then (none, removeCache key st)
    else
      match st.store.find? (fun e => e.1 = key) with
      | none => (none, st)
      | some e =>
        (some e.2,
          { st with
              metadata := st.metadata.map (fun m =>
                if m.key = key then
                  { m with access_count := m.access_count + 1, last_accessed := now }
                else m) })

/-! ### `advanced_inference.py` — `AdvancedInferenceEngine`

The floating-point geometric mean
`np.prod(confidences) ** (1.0 / len(confidences))` used by
`_calculate_temporal_confidence` and `_calculate_path_confidence` is an
irrational-valued float computation; it is abstracted as an explicit
function parameter `gm : List ℚ → ℚ`, and every theorem below holds for
all `gm`.  `_combine_probabilities` is a plain product and is modelled
exactly. -/

/-- `advanced_inference.TemporalRelation`. -/
structure TemporalRelation : Type where
  relation : Relation
  start_time : ℤ
  end_time : Option ℤ := none
  duration : Option ℚ := none
deriving DecidableEq, Repr

/-- `advanced_inference.ProbabilisticRelation`. -/
structure ProbabilisticRelation : Type where
  relation : Relation
  probability : ℚ
  evidence : List String
  confidence_scores : List (String × ℚ)
deriving DecidableEq, Repr

/-- `AdvancedInferenceEngine._validate_temporal_sequence`: scan
consecutive pairs; reject as soon as an earlier hop's (present) end time
exceeds the next hop's start time.  (`datetime` objects are always truthy
and `start_time` is mandatory, so the Python guard
`if curr_rel.end_time and next_rel.start_time` reduces to the presence of
`end_time`.) -/
def validTS : List TemporalRelation → Bool
  | [] => true
  | [_] => true
  | a :: b :: rest =>
    (match a.end_time with
     | some e => decide (e ≤ b.start_time)
     | none => true) && validTS (b :: rest)

/-- `min(rel.start_time for rel in path_relations)`; Python `min` raises
on an empty sequence, which cannot occur because enumerated paths have at
least one edge — the caller matches on a nonempty list. -/
def minStarts (r : TemporalRelation) (rest : List TemporalRelation) : ℤ :=
  (rest.map (fun x => x.start_time)).foldl min r.start_time

/-- `max(end_times) if end_times else None`. -/
def maxEnds (rels : List TemporalRelation) : Option ℤ :=
  match rels.filterMap (fun x => x.end_time) with
  | [] => none
  | e :: tl => some (tl.foldl max e)

/-- `AdvancedInferenceEngine.temporal_inference` on a temporal graph
`tg`, from `startE` to `endE`, with `maxLen = max_path_length` (5 by
default) and abstract geometric mean `gm`. -/
def temporalInference (gm : List ℚ → ℚ) (tg : EdgeList TemporalRelation)
    (startE endE : Entity) (relationType : String) (maxLen : ℕ) :
    List TemporalRelation :=
  (allSimplePaths tg startE.id endE.id maxLen).filterMap (fun path =>
    match optMapList (fun uv => edgeData? tg uv.1 uv.2) (path.zip path.tail) with
    | none => none  -- `valid_path = False`: a hop had no edge data
    | some pathRels =>
      if validTS pathRels then
        match pathRels with
        | [] => none  -- unreachable: enumerated paths have ≥ 1 edge
        | r :: rest =>
          some
            { relation :=
                { source := startE
                  target := endE
                  relation_type := relationType
                  confidence := gm ((r :: rest).map (fun x => x.relation.confidence))
                  properties := [("inferred", PVal.pb true),
                    ("path_length", PVal.pint path.length)] }
              start_time := minStarts r rest
              end_time := maxEnds (r :: rest) }
      else none)

/-- `AdvancedInferenceEngine._merge_evidence` (a `set` union; order
normalised to first appearance, on which no theorem depends). -/
def mergeEvidence (rels : List ProbabilisticRelation) : List String :=
  dedupList (rels.flatMap (fun r => r.evidence))

/-- Update an evidence-score table with one `(evidence, score)` pair,
keeping the maximum score per key
(`AdvancedInferenceEngine._calculate_evidence_scores` inner loop). -/
def scoreInsert (acc : List (String × ℚ)) (kv : String × ℚ) : List (String × ℚ) :=
  match acc.find? (fun e => e.1 = kv.1) with
  | some _ => acc.map (fun e => if e.1 = kv.1 then (e.1, max e.2 kv.2) else e)
  | none => acc ++ [kv]

/-- `AdvancedInferenceEngine._calculate_evidence_scores`. -/
def evidenceScores (rels : List ProbabilisticRelation) : List (String × ℚ) :=
  rels.foldl (fun acc r => r.confidence_scores.foldl scoreInsert acc) []

/-- `AdvancedInferenceEngine.probabilistic_inference` on a probabilistic
graph `pg` with threshold `thr` (`probability_threshold`, 0.6 by default)
and `maxLen = max_path_length`:
`_combine_probabilities` is the product of the hop probabilities. -/
def probabilisticInference (pg : EdgeList ProbabilisticRelation)
    (startE endE : Entity) (relationType : String) (thr : ℚ) (maxLen : ℕ) :
    List ProbabilisticRelation :=
  (allSimplePaths pg startE.id endE.id maxLen).filterMap (fun path =>
    match optMapList (fun uv => edgeData? pg uv.1 uv.2) (path.zip path.tail) with
    | none => none  -- `valid_path = False`
    | some pathRels =>
      let combined := (pathRels.map (fun r => r.probability)).prod
      if combined ≥ thr then
        some
          { relation :=
              { source := startE
                target := endE
                relation_type := relationType
                confidence := combined
                properties := [("inferred", PVal.pb true),
                  ("path_length", PVal.pint path.length)] }
            probability := combined
            evidence := mergeEvidence pathRels
            confidence_scores := evidenceScores pathRels }
      else none)

/-- `AdvancedInferenceEngine._infer_relation_type`: the type of the last
relation of the path (paths handed to it are nonempty). -/
def inferRelationType (path : List Relation) : String :=
  match path.getLast? with
  | some r => r.relation_type
  | none => ""

/-- The properties recorded on a relation emitted by
`multi_hop_inference`. -/
def mhProps (newPath : List Relation) : Props :=
  [("inferred", PVal.pb true),
   ("path_length", PVal.pint newPath.length),
   ("intermediate_nodes", PVal.plist (newPath.dropLast.map (fun r => r.target.id)))]

/-- The recursive `dfs` of `AdvancedInferenceEngine.multi_hop_inference`.
`fuel = max_hops - depth`; `visited` holds the ids on the call stack
below the current node (the mutable `visited` set equals
`cur :: visited` during the loop body); `curPath` is the relation path so
far.  Emission happens before the recursive descent, as in the source. -/
def mhAux (gm : List ℚ → ℚ) (kg : EdgeList Relation) (startE : Entity)
    (minConf : ℚ) : ℕ → List String → String → List Relation → List Relation
  | 0, _, _, _ => []
  | fuel + 1, visited, cur, curPath =>
    (outEdges kg cur).flatMap (fun te =>
      if te.1 ∈ cur :: visited then []
      else
        (if gm ((curPath ++ [te.2]).map (fun r => r.confidence)) ≥ minConf then
          [{ source := startE
             target := te.2.target
             relation_type := inferRelationType (curPath ++ [te.2])
             confidence := gm ((curPath ++ [te.2]).map (fun r => r.confidence))
             properties := mhProps (curPath ++ [te.2]) }]
         else []) ++
          mhAux gm kg startE minConf fuel (cur :: visited) te.2.target.id
            (curPath ++ [te.2]))

/-- `AdvancedInferenceEngine.multi_hop_inference(start_entity, max_hops,
min_confidence)` over the knowledge graph `kg`. -/
def multiHopInference (gm : List ℚ → ℚ) (kg : EdgeList Relation)
    (startE : Entity) (maxHops : ℕ) (minConf : ℚ) : List Relation :=
  mhAux gm kg startE minConf maxHops [] startE.id []

/-! ### `query_engine.py` — `QueryEngine`

The graph carries node properties (`G.nodes(data=True)`) next to its
edge list.  Python exceptions escaping `natural_language_query`
(`IndexError` from `entities[0]` / `entities[1]`, `KeyError` from
`self.graph.edges[s, t]` in `_general_search`) are modelled with
`Except`.  The model corresponds to `use_cache=False`: with caching
enabled, a query that produces a result would end in the
`cache_manager.set` write-back, which deadlocks in the cache's
`_cleanup` (see `cacheSetRun`); the `IndexError` of claim C10 is raised
before any cache write either way. -/

/-- Entity `E1` of the C1 scenario. -/
def c1E1 : Entity := ⟨"E1", "E1", "entity", []⟩

/-- Entity `E2` of the C1 scenario. -/
def c1E2 : Entity := ⟨"E2", "E2", "entity", []⟩

/-- Entity `E3` of the C1 scenario. -/
def c1E3 : Entity := ⟨"E3", "E3", "entity", []⟩

/-- `E1 —is_part_of(0.95)→ E2`. -/
def c1Rel12 : Relation := ⟨c1E1, c1E2, "is_part_of", 0.95, []⟩

/-- `E2 —is_type_of(0.9)→ E3`. -/
def c1Rel23 : Relation := ⟨c1E2, c1E3, "is_type_of", 0.9, []⟩

/-- The rule R1 of the C1 scenario: premises `[is_part_of, is_type_of]`,
conclusion `relates_to`, factor 0.9. -/
def c1Rule : InferenceRule :=
  { id := "R1", name := "R1", description := "",
    premise_relations := ["is_part_of", "is_type_of"],
    conclusion_relation := "relates_to", confidence_factor := 0.9,
    created_at := 0, updated_at := 0 }

/-- The engine's rule list after `add_rule(R1)`: the six default rules
followed by R1. -/
def c1Rules : List InferenceRule := defaultRules 0 ++ [c1Rule]

/-- The relation batch of the C1 scenario. -/
def c1Relations : List Relation := [c1Rel12, c1Rel23]

/-- The single relation the C1 scenario expects:
`E1 →(relates_to) E3`, confidence `0.95 × 0.9 × 0.9 = 0.7695`. -/
def c1Expected : Relation :=
  ⟨c1E1, c1E3, "relates_to", 0.7695,
    [("inferred", PVal.pb true), ("rule_id", PVal.ps "R1")]⟩

/-- A rule identical to R1 but with `is_active = False` (claim C4). -/
def c4InactiveRule : InferenceRule := { c1Rule with id := "R-inactive", is_active := false }

/-- An expired cache entry (expired well before the reference time 10):
100 bytes, never accessed. -/
def c2MetaE : CacheMetadata :=
  { key := "E", created_at := -100, expires_at := -1, size_bytes := 100,
    data_type := "general", access_count := 0, last_accessed := 0 }

/-- A live cache entry: 120 bytes, accessed 5 times. -/
def c2MetaA : CacheMetadata :=
  { key := "A", created_at := 0, expires_at := 1000, size_bytes := 120,
    data_type := "general", access_count := 5, last_accessed := 5 }

/-- The cache state before the C2 failing write. -/
def c2St : CacheState Unit :=
  { metadata := [c2MetaE, c2MetaA], store := [("E", ()), ("A", ())] }

/-- The state the C2 failing write — `set` of key "K", 80 bytes, at time
10 with default TTL 86400 s against `c2St` — writes and saves to disk
*before* its deadlocking `_cleanup` call.  A `CacheManager.__init__`
whose `_load_metadata` reads this saved file runs `_cleanup` on exactly
this state with the lock free. -/
def c2Pending : CacheState Unit := setPending 10 86400 "K" () 80 none c2St

/-- The state written and saved by `set("k", "v", ttl_hours=0)` at time 0
on an empty cache (default TTL 24 h) before its deadlocking `_cleanup`
call (claim C3). -/
def c3Pending : CacheState String :=
  setPending 0 86400 "k" "v" 5 (some 0) (⟨[], []⟩ : CacheState String)

/-- A temporal-graph relation (all hop confidences 1). -/
def c5MkRel (i j : String) : Relation :=
  ⟨⟨i, i, "entity", []⟩, ⟨j, j, "entity", []⟩, "precedes", 1, []⟩

/-- Hop `E1 → E2` active on the interval [0, 1]. -/
def c5T12 : TemporalRelation := ⟨c5MkRel "E1" "E2", 0, some 1, none⟩

/-- Hop `E2 → E3` active on the interval [2, 3]. -/
def c5T23 : TemporalRelation := ⟨c5MkRel "E2" "E3", 2, some 3, none⟩

/-- The temporal graph of the C5 witness. -/
def c5Graph : EdgeList TemporalRelation :=
  [("E1", "E2", c5T12), ("E2", "E3", c5T23)]

/-- A probabilistic hop `E1 → E2` with probability 0.8. -/
def c6P12 : ProbabilisticRelation :=
  ⟨c5MkRel "E1" "E2", 0.8, ["ev1"], [("ev1", 1)]⟩

/-- The probabilistic graph of the C6 witness. -/
def c6Graph : EdgeList ProbabilisticRelation := [("E1", "E2", c6P12)]

/-- Knowledge-graph relation `A → B` with confidence 1. -/
def c7RelAB : Relation := c5MkRel "A" "B"

/-- Knowledge-graph relation `B → C` with confidence 1. -/
def c7RelBC : Relation := c5MkRel "B" "C"

/-- The knowledge graph of the C7 witness (edge ids consistent with the
stored relations, as `add_edge(rel.source.id, rel.target.id, ...)` makes
them). -/
def c7Graph : EdgeList Relation := [("A", "B", c7RelAB), ("B", "C", c7RelBC)]

/-- The temporal-ordering constraint `_validate_temporal_sequence` checks
on one consecutive pair of hops: if the earlier hop has an end time, it
must not exceed the later hop's start time. -/
def tOrd (a b : TemporalRelation) : Prop :=
  ∀ e, a.end_time = some e → e ≤ b.start_time

/-- The start entity of the C7 witness graph. -/
def c7EntA : Entity := ⟨"A", "A", "entity", []⟩

/-! ### Helper lemmas -/

theorem optMapList_length {α β : Type} (f : α → Option β) :
    ∀ {l : List α} {ys : List β}, optMapList f l = some ys → ys.length = l.length := by
  intro l
  induction l with
  | nil => intro ys h; simp [optMapList] at h; simp [← h]
  | cons x xs ih =>
    intro ys h
    rw [optMapList] at h
    cases hfx : f x with
    | none => rw [hfx] at h; cases h
    | some y =>
      rw [hfx] at h
      cases hrec : optMapList f xs with
      | none => rw [hrec] at h; cases h
      | some ys' =>
        rw [hrec] at h
        cases h
        simp [ih hrec]

theorem optMapList_mem {α β : Type} (f : α → Option β) :
    ∀ {l : List α} {ys : List β}, optMapList f l = some ys →
      ∀ y ∈ ys, ∃ x ∈ l, f x = some y := by
  intro l
  induction l with
  | nil => intro ys h y hy; simp [optMapList] at h; subst h; simp at hy
  | cons x xs ih =>
    intro ys h y hy
    rw [optMapList] at h
    cases hfx : f x with
    | none => rw [hfx] at h; cases h
    | some y0 =>
      rw [hfx] at h
      cases hrec : optMapList f xs with
      | none => rw [hrec] at h; cases h
      | some ys' =>
        rw [hrec] at h
        cases h
        rcases List.mem_cons.mp hy with rfl | hy'
        · exact ⟨x, List.mem_cons_self x xs, hfx⟩
        · obtain ⟨x', hx', hfx'⟩ := ih hrec y hy'
          exact ⟨x', List.mem_cons_of_mem x hx', hfx'⟩

theorem cmLt_trans : ∀ a b c : CacheMetadata,
    cmLt a b = true → cmLt b c = true → cmLt a c = true := by
  intro a b c hab hbc
  simp only [cmLt, Bool.or_eq_true, Bool.and_eq_true, beq_iff_eq,
    decide_eq_true_eq] at *
  omega

theorem cmLt_asymm : ∀ a b : CacheMetadata,
    cmLt a b = true → cmLt b a = false := by
  intro a b hab
  by_contra h
  rw [Bool.not_eq_false] at h
  simp only [cmLt, Bool.or_eq_true, Bool.and_eq_true, beq_iff_eq,
    decide_eq_true_eq] at hab h
  omega

theorem stableInsert_perm {α : Type} (lt : α → α → Bool) (x : α) :
    ∀ l : List α, (stableInsert lt x l).Perm (x :: l) := by
  intro l
  induction l with
  | nil => simp [stableInsert]
  | cons y ys ih =>
    rw [stableInsert]
    split
    · exact List.Perm.refl _
    · exact (ih.cons y).trans (List.Perm.swap x y ys)

theorem stableSortPy_perm_aux {α : Type} (lt : α → α → Bool) :
    ∀ (l acc : List α),
      (l.foldl (fun a x => stableInsert lt x a) acc).Perm (l ++ acc) := by
  intro l
  induction l with
  | nil => intro acc; simp
  | cons x xs ih =>
    intro acc
    rw [List.foldl_cons, List.cons_append]
    have h1 := ih (stableInsert lt x acc)
    have h2 : (xs ++ stableInsert lt x acc).Perm (xs ++ (x :: acc)) :=
      List.Perm.append_left xs (stableInsert_perm lt x acc)
    exact (h1.trans h2).trans List.perm_middle

theorem stableSortPy_perm {α : Type} (lt : α → α → Bool) (l : List α) :
    (stableSortPy lt l).Perm l := by
  have := stableSortPy_perm_aux lt l []
  simpa [stableSortPy] using this

theorem stableInsert_pairwise {α : Type} (lt : α → α → Bool)
    (htrans : ∀ a b c, lt a b = true → lt b c = true → lt a c = true)
    (hasymm : ∀ a b, lt a b = true → lt b a = false) (x : α) :
    ∀ l : List α, l.Pairwise (fun a b => lt b a = false) →
      (stableInsert lt x l).Pairwise (fun a b => lt b a = false) := by
  intro l
  induction l with
  | nil => intro _; simp [stableInsert]
  | cons y ys ih =>
    intro hp
    rw [List.pairwise_cons] at hp
    rw [stableInsert]
    split
    case isTrue hxy =>
      rw [List.pairwise_cons]
      refine ⟨?_, List.pairwise_cons.mpr hp⟩
      intro z hz
      rcases List.mem_cons.mp hz with rfl | hz'
      · exact hasymm _ _ hxy
      · have hzy := hp.1 z hz'
        cases hzx : lt z x with
        | false => rfl
        | true => rw [htrans z x y hzx hxy] at hzy; cases hzy
    case isFalse hxy =>
      rw [List.pairwise_cons]
      refine ⟨?_, ih hp.2⟩
      intro z hz
      have := (stableInsert_perm lt x ys).mem_iff.mp hz
      rcases List.mem_cons.mp this with rfl | hz'
      · simpa using hxy
      · exact hp.1 z hz'

theorem stableSortPy_pairwise {α : Type} (lt : α → α → Bool)
    (htrans : ∀ a b c, lt a b = true → lt b c = true → lt a c = true)
    (hasymm : ∀ a b, lt a b = true → lt b a = false) :
    ∀ (l acc : List α), acc.Pairwise (fun a b => lt b a = false) →
      (l.foldl (fun a x => stableInsert lt x a) acc).Pairwise
        (fun a b => lt b a = false) := by
  intro l
  induction l with
  | nil => intro acc h; simpa using h
  | cons x xs ih =>
    intro acc h
    rw [List.foldl_cons]
    exact ih _ (stableInsert_pairwise lt htrans hasymm x acc h)

theorem sumSizes_cons (m : CacheMetadata) (l : List CacheMetadata) :
    sumSizes (m :: l) = (m.size_bytes : ℤ) + sumSizes l := by
  simp [sumSizes]

theorem sumSizes_filter_le (p : CacheMetadata → Bool) :
    ∀ l : List CacheMetadata, sumSizes (l.filter p) ≤ sumSizes l := by
  intro l
  induction l with
  | nil => simp [sumSizes]
  | cons m rest ih =>
    rw [List.filter_cons]
    split
    · rw [sumSizes_cons, sumSizes_cons]; omega
    · rw [sumSizes_cons]
      have := Int.ofNat_nonneg m.size_bytes
      omega

theorem evictLoop_spec (maxSize : ℤ) (hmax : 0 ≤ maxSize) :
    ∀ (S : List CacheMetadata) (total : ℤ), total = sumSizes S →
      ∃ Q, S = evictLoop maxSize S total ++ Q ∧ sumSizes Q ≤ maxSize := by
  intro S
  induction S with
  | nil =>
    intro total _
    exact ⟨[], rfl, by simp [sumSizes]; exact hmax⟩
  | cons m rest ih =>
    intro total htot
    rw [evictLoop]
    split
    case isTrue hgt =>
      have htot' : total - (m.size_bytes : ℤ) = sumSizes rest := by
        rw [htot, sumSizes_cons]; ring
      obtain ⟨Q, hQ, hs⟩ := ih (total - (m.size_bytes : ℤ)) htot'
      exact ⟨Q, by rw [List.cons_append, ← hQ], hs⟩
    case isFalse hle =>
      exact ⟨m :: rest, rfl, by omega⟩

theorem cleanup_no_expired {α : Type} (now maxSize : ℤ) (st : CacheState α)
    (hnodup : (st.metadata.map (fun m => m.key)).Nodup)
    (hfresh : ∀ m ∈ st.metadata, cmExpired now m = false)
    (hmax : 0 ≤ maxSize) :
    sumSizes (cleanup now maxSize st).metadata ≤ maxSize ∧
      ∀ m ∈ st.metadata, m ∉ (cleanup now maxSize st).metadata →
        ∀ k ∈ (cleanup now maxSize st).metadata, cmLt k m = false := by
  have hexp : st.metadata.filter (fun m => cmExpired now m) = [] := by
    rw [List.filter_eq_nil_iff]
    intro m hm
    simp [hfresh m hm]
  have hkeep : st.metadata.filter (fun m => ¬ cmExpired now m) = st.metadata := by
    rw [List.filter_eq_self]
    intro m hm
    simp [hfresh m hm]
  rw [cleanup, hexp, hkeep]
  simp only [List.map_nil, List.nil_append]
  split
  case isTrue hgt =>
    set S := stableSortPy cmLt st.metadata with hS
    have hperm : S.Perm st.metadata := stableSortPy_perm cmLt st.metadata
    have htot : sumSizes st.metadata = sumSizes S := by
      simp only [sumSizes]
      exact (List.Perm.sum_eq (List.Perm.map (fun m => (m.size_bytes : ℤ)) hperm)).symm
    obtain ⟨Q, hsplit, hQ⟩ := evictLoop_spec maxSize hmax S (sumSizes st.metadata) htot
    set P := evictLoop maxSize S (sumSizes st.metadata) with hP
    have hpermPQ : st.metadata.Perm (P ++ Q) := (hperm.symm).trans (hsplit ▸ List.Perm.refl S)
    have hkeysnodup : ((P ++ Q).map (fun m => m.key)).Nodup :=
      ((hpermPQ.map (fun m => m.key)).nodup_iff).mp hnodup
    have hdisj : ∀ q ∈ Q, q.key ∉ P.map (fun m => m.key) := by
      intro q hq hmem
      rw [List.map_append, List.nodup_append] at hkeysnodup
      exact hkeysnodup.2.2 hmem (List.mem_map_of_mem _ hq)
    have hfilterP : P.filter (fun m => decide (m.key ∉ P.map (fun m => m.key))) = [] := by
      rw [List.filter_eq_nil_iff]
      intro m hm
      simp [List.mem_map_of_mem _ hm]
    have hfilterQ : Q.filter (fun m => decide (m.key ∉ P.map (fun m => m.key))) = Q := by
      rw [List.filter_eq_self]
      intro m hm
      simpa using hdisj m hm
    have hpermfilter :
        (st.metadata.filter (fun m => decide (m.key ∉ P.map (fun m => m.key)))).Perm Q := by
      have := hpermPQ.filter (fun m => decide (m.key ∉ P.map (fun m => m.key)))
      rw [List.filter_append, hfilterP, hfilterQ, List.nil_append] at this
      exact this
    constructor
    · have : sumSizes (st.metadata.filter (fun m => decide (m.key ∉ P.map (fun m => m.key)))) =
          sumSizes Q := by
        simp only [sumSizes]
        exact List.Perm.sum_eq (List.Perm.map (fun m => (m.size_bytes : ℤ)) hpermfilter)
      omega
    · intro m hm hmnot k hk
      have hkmem := List.mem_filter.mp hk
      have hmP : m ∈ P := by
        rcases (hpermPQ.mem_iff).mp hm with hmPQ
        rcases List.mem_append.mp hmPQ with h | h
        · exact h
        · exfalso
          apply hmnot
          rw [List.mem_filter]
          exact ⟨hm, by simpa using hdisj m h⟩
      have hkQ : k ∈ Q := by
        rcases (hpermPQ.mem_iff).mp hkmem.1 with hkPQ
        rcases List.mem_append.mp hkPQ with h | h
        · exfalso
          have : k.key ∈ P.map (fun m => m.key) := List.mem_map_of_mem _ h
          exact of_decide_eq_true hkmem.2 this
        · exact h
      have hsorted : S.Pairwise (fun a b => cmLt b a = false) := by
        rw [hS, stableSortPy]
        exact stableSortPy_pairwise cmLt cmLt_trans cmLt_asymm st.metadata []
          (List.Pairwise.nil)
      rw [hsplit, List.pairwise_append] at hsorted
      exact hsorted.2.2 m hmP k hkQ
  case isFalse hle =>
    simp only [List.map_nil]
    have : st.metadata.filter (fun m => decide (m.key ∉ ([] : List String))) = st.metadata := by
      rw [List.filter_eq_self]
      intro m _
      simp
    rw [this]
    constructor
    · omega
    · intro m hm hmnot k hk
      exact absurd hm hmnot

theorem validTS_chain : ∀ l : List TemporalRelation,
    validTS l = true ↔ List.Chain' tOrd l := by
  intro l
  induction l with
  | nil => simp [validTS]
  | cons a rest ih =>
    cases rest with
    | nil => simp [validTS, List.chain'_singleton]
    | cons b rest' =>
      rw [validTS, Bool.and_eq_true, List.chain'_cons, ih]
      constructor
      · rintro ⟨h1, h2⟩
        refine ⟨?_, h2⟩
        intro e he
        cases hend : a.end_time with
        | none => rw [hend] at he; cases he
        | some e' =>
          rw [hend] at h1 he
          cases he
          exact of_decide_eq_true h1
      · rintro ⟨h1, h2⟩
        refine ⟨?_, h2⟩
        cases hend : a.end_time with
        | none => rfl
        | some e' => exact decide_eq_true (h1 e' hend)

theorem outEdges_mem {ε : Type} (g : EdgeList ε) (u : String) (te : String × ε) :
    te ∈ outEdges g u → ∃ e ∈ g, e.1 = u ∧ te = (e.2.1, e.2.2) := by
  intro h
  rw [outEdges, List.mem_map] at h
  obtain ⟨e, he, rfl⟩ := h
  rw [List.mem_filter] at he
  exact ⟨e, he.1, by simpa using he.2, rfl⟩

theorem mhAux_spec (gm : List ℚ → ℚ) (kg : EdgeList Relation) (startE : Entity)
    (minConf : ℚ) (maxHops : ℕ)
    (hconsist : ∀ e ∈ kg, (e.2.2 : Relation).target.id = e.2.1) :
    ∀ (fuel : ℕ) (visited : List String) (cur : String) (curPath : List Relation),
      startE.id :: curPath.map (fun x => x.target.id) = visited.reverse ++ [cur] →
      (cur :: visited).Nodup →
      curPath.length + fuel ≤ maxHops →
      ∀ r ∈ mhAux gm kg startE minConf fuel visited cur curPath,
        ∃ pathRels : List Relation, pathRels ≠ [] ∧ pathRels.length ≤ maxHops ∧
          (startE.id :: pathRels.map (fun x => x.target.id)).Nodup ∧
          r.properties = mhProps pathRels := by
  intro fuel
  induction fuel with
  | zero =>
    intro visited cur curPath _ _ _ r hr
    rw [mhAux] at hr
    cases hr
  | succ fuel ih =>
    intro visited cur curPath hinv hnodup hlen r hr
    rw [mhAux, List.mem_flatMap] at hr
    obtain ⟨te, hte, hr⟩ := hr
    obtain ⟨e, he, heu, hte_eq⟩ := outEdges_mem kg cur te hte
    have htid : te.2.target.id = te.1 := by rw [hte_eq]; exact hconsist e he
    split at hr
    case isTrue => cases hr
    case isFalse hnotin =>
      have hinv' :
          startE.id :: (curPath ++ [te.2]).map (fun x => x.target.id)
            = (te.2.target.id :: cur :: visited).reverse := by
        rw [List.map_append, List.reverse_cons, List.reverse_cons]
        rw [show (startE.id :: (curPath.map (fun x => x.target.id) ++
            (([te.2] : List Relation).map (fun x => x.target.id))))
          = (startE.id :: curPath.map (fun x => x.target.id)) ++ [te.2.target.id] by simp]
        rw [hinv]
      have hnodup2 : (te.2.target.id :: cur :: visited).Nodup := by
        rw [htid]
        exact List.nodup_cons.mpr ⟨hnotin, hnodup⟩
      rw [List.mem_append] at hr
      rcases hr with hr | hr
      · split at hr
        case isTrue hconf =>
          rcases List.mem_singleton.mp hr with rfl
          refine ⟨curPath ++ [te.2], by simp, ?_, ?_, rfl⟩
          · rw [List.length_append]
            simp only [List.length_singleton]
            omega
          · rw [hinv']
            exact List.nodup_reverse.mpr hnodup2
        case isFalse => cases hr
      · have hlen' : (curPath ++ [te.2]).length + fuel ≤ maxHops := by
          rw [List.length_append]
          simp only [List.length_singleton]
          omega
        exact ih (cur :: visited) te.2.target.id (curPath ++ [te.2])
          (by rw [hinv', List.reverse_cons]) hnodup2 hlen' r hr

/-- C1: every relation emitted by `RelationInferenceEngine.infer_relations`
comes from a firing rule and two hop relations of the input batch, carries
properties `inferred = true` and `rule_id` equal to the firing rule's id,
has the rule's conclusion type, and its confidence equals exactly
(confidence of first hop) × (confidence of second hop) × (rule's
confidence factor); and on the scenario graph
`E1 —is_part_of(0.95)→ E2 —is_type_of(0.9)→ E3` with rule R1
(premises `[is_part_of, is_type_of]`, conclusion `relates_to`, factor
0.9), the call emits exactly one derived relation `E1 → E3` of type
`relates_to` with confidence `0.7695` exactly. -/
theorem c1_rule_output_tagging_and_confidence :
    (∀ (rules : List InferenceRule) (relations : List Relation) (r : Relation),
        r ∈ inferRelations rules relations →
        ∃ rule ∈ rules, ∃ r1 ∈ relations, ∃ r2 ∈ relations,
          r.relation_type = rule.conclusion_relation ∧
          r.confidence = r1.confidence * r2.confidence * rule.confidence_factor ∧
          r.properties = [("inferred", PVal.pb true), ("rule_id", PVal.ps rule.id)]) ∧
      inferRelations c1Rules c1Relations = [c1Expected] := by
  constructor
  · intro rules relations r hr
    rw [inferRelations, List.mem_flatMap] at hr
    obtain ⟨rule, hrule, hr⟩ := hr
    refine ⟨rule, hrule, ?_⟩
    by_cases hlen : rule.premise_relations.length = 2
    · rw [if_pos hlen, List.mem_filterMap] at hr
      obtain ⟨p, hp, happ⟩ := hr
      have hplen : p.length - 1 = 2 := by
        rw [findMatchingPaths, List.mem_flatMap] at hp
        obtain ⟨s, _, hp⟩ := hp
        rw [List.mem_flatMap] at hp
        obtain ⟨t, _, hp⟩ := hp
        split at hp
        · rw [List.mem_filter] at hp
          have hc := hp.2
          rw [Bool.and_eq_true] at hc
          have := of_decide_eq_true hc.1
          omega
        · cases hp
      rw [applyRule.eq_def] at happ
      split at happ
      case _ source_id target_id hhead hlast =>
        split at happ
        case _ source_entity target_entity hents =>
          cases hhops : hopRelations relations p with
          | none => rw [hhops] at happ; cases happ
          | some hops =>
            rw [hhops] at happ
            cases happ
            have hhl : hops.length = 2 := by
              have := optMapList_length _ hhops
              have hz : (p.zip p.tail).length = p.length - 1 := by
                rw [List.length_zip, List.length_tail]
                omega
              omega
            obtain ⟨r1, r2, rfl⟩ := List.length_eq_two.mp hhl
            have hm1 : r1 ∈ relations := by
              obtain ⟨uv, _, hf⟩ := optMapList_mem _ hhops r1 (by simp)
              exact List.mem_of_find?_eq_some hf
            have hm2 : r2 ∈ relations := by
              obtain ⟨uv, _, hf⟩ := optMapList_mem _ hhops r2 (by simp)
              exact List.mem_of_find?_eq_some hf
            refine ⟨r1, hm1, r2, hm2, rfl, ?_, rfl⟩
            simp [mul_assoc]
        case _ hne => cases happ
      case _ => cases happ
    · rw [if_neg hlen] at hr; simp at hr
  · simp [inferRelations, c1Rules, c1Relations, defaultRules, c1Rule,
      buildRelGraph, addEdgeE, c1Rel12, c1Rel23, c1E1, c1E2, c1E3,
      findMatchingPaths, nodesOf, addUnique, allSimplePaths, spAux, adjOf,
      pathRelTypes, edgeData?, applyRule, findEnts, hopRelations, optMapList,
      List.find?, List.filter, c1Expected]
    norm_num

/-- C1 witness: the scenario's single output relation instantiates the
universal statement — R1 fires with hops `0.95` and `0.9`. -/
theorem c1_witness :
    ∃ rule ∈ c1Rules, ∃ r1 ∈ c1Relations, ∃ r2 ∈ c1Relations,
      c1Expected.relation_type = rule.conclusion_relation ∧
      c1Expected.confidence = r1.confidence * r2.confidence * rule.confidence_factor ∧
      c1Expected.properties = [("inferred", PVal.pb true), ("rule_id", PVal.ps rule.id)] :=
  c1_rule_output_tagging_and_confidence.1 c1Rules c1Relations c1Expected
    (by rw [c1_rule_output_tagging_and_confidence.2]; exact List.mem_singleton_self c1Expected)

/-- C2: `CacheManager.set` can never return `True`: its body holds the
non-reentrant `threading.Lock` and then calls `_cleanup`, which
re-acquires the same lock, so every `set` call deadlocks — the state the
claim describes after a successful `set` is reached by no run.
Independently, the capacity check itself does not enforce the budget:
run with the lock free (as `__init__` runs it, e.g. on the very metadata
file the C2 write saves before hanging — an expired 100-byte entry, a
live 120-byte entry and a fresh 80-byte entry against a 150-byte
budget), it removes only the expired entry, whose size it subtracts from
a running total that never included it, and stops while 200 > 150 bytes
of live entries remain. -/
theorem c2_set_deadlocks :
    (∀ (α : Type) (now maxSize defaultTtl : ℤ) (key : String) (data : α)
        (sizeBytes : ℕ) (ttlHours : Option ℤ) (st : CacheState α),
        cacheSetRun now maxSize defaultTtl key data sizeBytes ttlHours st
          = PyRun.deadlock) ∧
      sumSizes ((cleanup 10 150 c2Pending).metadata.filter
          (fun m => ¬ cmExpired 10 m)) = 200 ∧
      ¬ sumSizes ((cleanup 10 150 c2Pending).metadata.filter
          (fun m => ¬ cmExpired 10 m)) ≤ 150 := by
  refine ⟨fun α now maxSize defaultTtl key data sizeBytes ttlHours st => rfl, ?_, ?_⟩
  · decide
  · decide

/-- C3: `set("k", v, ttl_hours=0)` never returns — after writing and
saving the cache file and metadata it deadlocks re-acquiring the
non-reentrant lock inside `_cleanup` — so the claimed immediate `get` is
never reached; and the metadata it does write beforehand carries
`expires_at = created_at + 86400` s, the *default* 24-hour TTL, because
`0` is falsy in `timedelta(hours=ttl_hours) if ttl_hours else
self.default_ttl`.  The stored entry is therefore not immediately
expired in any sense: `get` evaluated against that saved state is a hit
returning the payload for the next 24 hours, not a miss. -/
theorem c3_zero_ttl_not_expired :
    cacheSetRun 0 (500 * 1024 * 1024) 86400 "k" "v" 5 (some 0)
        (⟨[], []⟩ : CacheState String) = PyRun.deadlock ∧
      c3Pending.metadata.map (fun m => m.expires_at) = [86400] ∧
      (cacheGet 0 c3Pending "k").1 = some "v" := by
  refine ⟨rfl, ?_, ?_⟩
  · decide
  · decide

/-- C4 (amended): `infer_relations` never consults `is_active`: its
output is unchanged when every rule's `is_active` flag is overwritten by
an arbitrary value, so inactive rules fire exactly like active ones
(the unamended claim fails — see the counterexample). -/
theorem c4_is_active_ignored :
    ∀ (b : Bool) (rules : List InferenceRule) (relations : List Relation),
      inferRelations (rules.map (fun rule => { rule with is_active := b })) relations
        = inferRelations rules relations := by
  intro b rules relations
  induction rules with
  | nil => rfl
  | cons rule rs ih =>
    simp only [inferRelations, List.map_cons, List.flatMap_cons] at *
    rw [ih]
    rfl

/-- C4 counterexample: a rule with `is_active = false` still contributes
a derived relation on the C1 scenario batch, contradicting the claim that
inactive rules never fire. -/
theorem c4_counterexample :
    c4InactiveRule.is_active = false ∧
      (inferRelations [c4InactiveRule] c1Relations).length = 1 := by
  constructor
  · rfl
  · decide

/-- C5: every `TemporalRelation` returned by
`AdvancedInferenceEngine.temporal_inference` is derived from a hop
sequence that passes `_validate_temporal_sequence`, i.e. on every
consecutive pair of hops an earlier hop's end time (when present) is ≤
the later hop's start time (`List.Chain' tOrd`); the result's start/end
times and confidence are computed from that same sequence.  This holds
for every geometric-mean function `gm` (the float computation
`np.prod(...) ** (1/len)` is abstracted). -/
theorem c5_temporal_order_respected :
    ∀ (gm : List ℚ → ℚ) (tg : EdgeList TemporalRelation) (startE endE : Entity)
      (relationType : String) (maxLen : ℕ) (tr : TemporalRelation),
      tr ∈ temporalInference gm tg startE endE relationType maxLen →
      ∃ r rest, validTS (r :: rest) = true ∧
        List.Chain' tOrd (r :: rest) ∧
        tr.start_time = minStarts r rest ∧
        tr.end_time = maxEnds (r :: rest) ∧
        tr.relation.confidence = gm ((r :: rest).map (fun x => x.relation.confidence)) := by
  intro gm tg startE endE relationType maxLen tr htr
  rw [temporalInference, List.mem_filterMap] at htr
  obtain ⟨path, hpath, hsome⟩ := htr
  split at hsome
  case h_1 => cases hsome
  case h_2 rels heq =>
    split at hsome
    case isTrue hvalid =>
      cases rels with
      | nil => cases hsome
      | cons r rest =>
        cases hsome
        exact ⟨r, rest, hvalid, (validTS_chain _).mp hvalid, rfl, rfl, rfl⟩
    case isFalse => cases hsome

/-- C5 witness: on the two-hop graph `E1 →[0,1] E2 →[2,3] E3` the single
inferred relation (interval `[0, 3]`) comes from an ordered hop sequence. -/
theorem c5_witness :
    ∃ r rest, validTS (r :: rest) = true ∧
      List.Chain' tOrd (r :: rest) ∧
      (⟨⟨c1E1, c1E3, "precedes", 1,
          [("inferred", PVal.pb true), ("path_length", PVal.pint 3)]⟩,
        0, some 3, none⟩ : TemporalRelation).start_time = minStarts r rest ∧
      (⟨⟨c1E1, c1E3, "precedes", 1,
          [("inferred", PVal.pb true), ("path_length", PVal.pint 3)]⟩,
        0, some 3, none⟩ : TemporalRelation).end_time = maxEnds (r :: rest) ∧
      (⟨⟨c1E1, c1E3, "precedes", 1,
          [("inferred", PVal.pb true), ("path_length", PVal.pint 3)]⟩,
        0, some 3, none⟩ : TemporalRelation).relation.confidence =
        (fun _ => (1 : ℚ)) ((r :: rest).map (fun x => x.relation.confidence)) :=
  c5_temporal_order_respected (fun _ => 1) c5Graph c1E1 c1E3 "precedes" 5 _ (by decide)

/-- C6: every `ProbabilisticRelation` returned by
`AdvancedInferenceEngine.probabilistic_inference` has probability equal
to the product of the hop probabilities along its path, that probability
is ≥ the configured threshold (`probability_threshold`, default 0.6), and
it is also stored as the relation's confidence; no path with a lower
combined probability produces an output. -/
theorem c6_probability_threshold :
    ∀ (pg : EdgeList ProbabilisticRelation) (startE endE : Entity)
      (relationType : String) (thr : ℚ) (maxLen : ℕ) (pr : ProbabilisticRelation),
      pr ∈ probabilisticInference pg startE endE relationType thr maxLen →
      ∃ rels : List ProbabilisticRelation,
        pr.probability = (rels.map (fun r => r.probability)).prod ∧
        thr ≤ pr.probability ∧
        pr.relation.confidence = pr.probability := by
  intro pg startE endE relationType thr maxLen pr hpr
  rw [probabilisticInference, List.mem_filterMap] at hpr
  obtain ⟨path, hpath, hsome⟩ := hpr
  split at hsome
  case h_1 => cases hsome
  case h_2 rels heq =>
    simp only [ge_iff_le] at hsome
    split at hsome
    case isTrue hge =>
      cases hsome
      exact ⟨rels, rfl, hge, rfl⟩
    case isFalse => cases hsome

/-- C6 witness: a single hop of probability 0.8 clears the default 0.6
threshold and is returned with probability `0.8`. -/
theorem c6_witness :
    ∃ rels : List ProbabilisticRelation,
      (⟨⟨c1E1, c1E2, "related_to", 0.8,
          [("inferred", PVal.pb true), ("path_length", PVal.pint 2)]⟩,
        0.8, ["ev1"], [("ev1", 1)]⟩ : ProbabilisticRelation).probability
          = (rels.map (fun r => r.probability)).prod ∧
      (0.6 : ℚ) ≤ (⟨⟨c1E1, c1E2, "related_to", 0.8,
          [("inferred", PVal.pb true), ("path_length", PVal.pint 2)]⟩,
        0.8, ["ev1"], [("ev1", 1)]⟩ : ProbabilisticRelation).probability ∧
      (⟨⟨c1E1, c1E2, "related_to", 0.8,
          [("inferred", PVal.pb true), ("path_length", PVal.pint 2)]⟩,
        0.8, ["ev1"], [("ev1", 1)]⟩ : ProbabilisticRelation).relation.confidence
          = (⟨⟨c1E1, c1E2, "related_to", 0.8,
          [("inferred", PVal.pb true), ("path_length", PVal.pint 2)]⟩,
        0.8, ["ev1"], [("ev1", 1)]⟩ : ProbabilisticRelation).probability :=
  c6_probability_threshold c6Graph c1E1 c1E2 "related_to" 0.6 5 _ (by
    rw [probabilisticInference, List.mem_filterMap]
    refine ⟨["E1", "E2"], by decide, ?_⟩
    norm_num [optMapList, edgeData?, c6Graph, c6P12, c5MkRel, c1E1, c1E2,
      mergeEvidence, dedupList, evidenceScores, scoreInsert, List.find?])

/-- C7: on a knowledge graph whose edge data is consistent with the graph
(each stored relation's target id equals the edge's target node, as the
`add_edge(rel.source.id, rel.target.id, relation=rel)` pattern
guarantees), every relation returned by
`AdvancedInferenceEngine.multi_hop_inference` records a nonempty hop path
whose node sequence (start node followed by each hop's target) never
repeats a node, and whose length — recorded in the `path_length`
property — is at most `max_hops`; this holds for every path-confidence
function `gm`. -/
theorem c7_multi_hop_simple_and_bounded :
    ∀ (gm : List ℚ → ℚ) (kg : EdgeList Relation) (startE : Entity) (maxHops : ℕ)
      (minConf : ℚ),
      (∀ e ∈ kg, (e.2.2 : Relation).target.id = e.2.1) →
      ∀ r ∈ multiHopInference gm kg startE maxHops minConf,
        ∃ pathRels : List Relation, pathRels ≠ [] ∧
          pathRels.length ≤ maxHops ∧
          (startE.id :: pathRels.map (fun x => x.target.id)).Nodup ∧
          r.properties = mhProps pathRels := by
  intro gm kg startE maxHops minConf hconsist r hr
  exact mhAux_spec gm kg startE minConf maxHops hconsist maxHops [] startE.id []
    (by simp) (by simp) (by simp) r hr

/-- C7 witness: on the chain `A → B → C` with `max_hops = 2`, the
one-hop inference `A → B` records a duplicate-free path of length ≤ 2. -/
theorem c7_witness :
    ∃ pathRels : List Relation, pathRels ≠ [] ∧ pathRels.length ≤ 2 ∧
      (c7EntA.id :: pathRels.map (fun x => x.target.id)).Nodup ∧
      (⟨c7EntA, ⟨"B", "B", "entity", []⟩, "precedes", 1,
        mhProps [c7RelAB]⟩ : Relation).properties = mhProps pathRels :=
  c7_multi_hop_simple_and_bounded (fun _ => 1) c7Graph c7EntA 2 0 (by decide)
    ⟨c7EntA, ⟨"B", "B", "entity", []⟩, "precedes", 1, mhProps [c7RelAB]⟩ (by decide)

